import Mathlib

/-!
Verification development for the HTML tree core of the repository
(`HTMLParser`, `HTMLExplorer`, and the presentation helpers in
`src/test2.py`).  The embedding has three layers:

* `PNode` — the generic parsed-document structure handed to the builder
  (per node: an optional element name, a class list, the direct string
  payload of text nodes, and ordered children), as produced by the
  external markup-parsing primitive.
* `NodeRec` / arena — the mutable dict graph built by
  `HTMLParser._build_tree`.  Each Python dict is one arena slot; the
  `parent` field is the identity (index) of the owning dict, exactly as
  the Python field holds a reference to the parent dict.  The explorer's
  cursor is an index into this arena.
* `DictNode` — an acyclic snapshot of one node dict along the owning
  `children` direction, with the `parent` reference kept as an opaque
  identity annotation.  The presentation helpers (`format_node_identifier`,
  `tree_to_string`, `HTMLExplorer.search`) and the exporter never follow
  the parent reference, so they are embedded over this type.
-/

/-- A node of the generic parsed document (the BeautifulSoup layer):
`name` is the element name (`none` for non-element content such as text
or comments), `classes` the class-list attribute, `text` the direct
string payload of a text node, `children` the ordered child entries. -/
inductive PNode : Type where
  | mk (name : Option String) (classes : List String) (text : String)
      (children : List PNode)

/-- One node dict as created by `HTMLParser._build_tree`:
`{"tag": ..., "classes": ..., "children": ..., "parent": ...}`.
`children` holds the identities (arena indices) of the child dicts and
`parent` the identity of the parent dict, or `none` for the root. -/
structure NodeRec : Type where
  tag : String
  classes : List String
  children : List Nat
  parent : Option Nat
deriving DecidableEq, Inhabited

/-- Dict lookup by identity: the record stored at arena index `i`. -/
def getN : List NodeRec → Nat → NodeRec
  | [], _ => default
  | r :: _, 0 => r
  | _ :: rs, k + 1 => getN rs k

mutual
/-- Embedding of `HTMLParser._build_tree(element, parent)`.  If the input
node has no element name the call returns `None` (no recursion into its
children).  Otherwise a fresh dict is allocated (its identity is the
current arena length), the children are built with this dict as parent,
and the qualifying results are appended, in source order, to the new
dict's `children`. -/
def buildTree : PNode → Option Nat → List NodeRec → List NodeRec × Option Nat
  | .mk none _ _ _, _, arena => (arena, none)
  | .mk (some t) classes _ children, par, arena =>
    let j := arena.length
    let a1 := arena ++ [⟨t, classes, [], par⟩]
    let r := buildChildren children j a1
    (r.1.set j ⟨t, classes, r.2, par⟩, some j)

/-- The `for child in element.children` loop of `_build_tree`: builds each
child with parent identity `j` and collects the identities of the
qualifying results in order. -/
def buildChildren : List PNode → Nat → List NodeRec → List NodeRec × List Nat
  | [], _, arena => (arena, [])
  | c :: cs, j, arena =>
    match buildTree c (some j) arena with
    | (a1, some k) =>
      let r := buildChildren cs j a1
      (r.1, k :: r.2)
    | (a1, none) => buildChildren cs j a1
end

mutual
/-- Whether the parsed document contains any node with an element name. -/
def hasElem : PNode → Bool
  | .mk name _ _ ch => name.isSome || hasElemList ch

/-- List version of `hasElem`. -/
def hasElemList : List PNode → Bool
  | [] => false
  | c :: cs => hasElem c || hasElemList cs
end

theorem getN_append_left : ∀ (a b : List NodeRec) (k : Nat), k < a.length →
    getN (a ++ b) k = getN a k
  | [], _, k, h => absurd h (by simp)
  | _ :: _, _, 0, _ => rfl
  | _ :: rs, b, k + 1, h => getN_append_left rs b k (by simpa using h)

theorem getN_append_self : ∀ (a : List NodeRec) (v : NodeRec),
    getN (a ++ [v]) a.length = v
  | [], _ => rfl
  | _ :: rs, v => getN_append_self rs v

theorem getN_set_eq : ∀ (a : List NodeRec) (i : Nat) (v : NodeRec), i < a.length →
    getN (a.set i v) i = v
  | [], i, _, h => absurd h (by simp)
  | _ :: _, 0, _, _ => rfl
  | _ :: rs, i + 1, v, h => getN_set_eq rs i v (by simpa using h)

theorem getN_set_ne : ∀ (a : List NodeRec) (i k : Nat) (v : NodeRec), k ≠ i →
    getN (a.set i v) k = getN a k
  | [], _, _, _, _ => by simp [List.set]
  | _ :: _, 0, 0, _, h => absurd rfl h
  | _ :: _, 0, _ + 1, _, _ => rfl
  | _ :: _, _ + 1, 0, _, _ => rfl
  | _ :: rs, i + 1, k + 1, v, h => getN_set_ne rs i k v (by omega)

/-- Facts holding after one `_build_tree` call on prior arena `arena` with
parent argument `par`: the prior dicts are untouched, a returned dict is
freshly allocated with `parent = par`, every newly allocated dict's
children are dicts allocated after it, and every new dict other than the
returned one is recorded, by identity, in its parent's `children`. -/
def BuildPost (arena : List NodeRec) (par : Option Nat)
    (out : List NodeRec × Option Nat) : Prop :=
  arena.length ≤ out.1.length ∧
  (∀ k, k < arena.length → getN out.1 k = getN arena k) ∧
  (out.2 = none → out.1 = arena) ∧
  (∀ j, out.2 = some j →
    j = arena.length ∧ j < out.1.length ∧ (getN out.1 j).parent = par) ∧
  (∀ k, arena.length ≤ k → k < out.1.length →
    ∀ c ∈ (getN out.1 k).children, k < c ∧ c < out.1.length) ∧
  (∀ k, arena.length ≤ k → k < out.1.length → out.2 ≠ some k →
    ∃ p, (getN out.1 k).parent = some p ∧ arena.length ≤ p ∧ p < k ∧
      k ∈ (getN out.1 p).children)

/-- Facts holding after the child loop of `_build_tree`, building under the
dict at index `j`: the collected identities are fresh dicts whose parent
is `j` (their membership in `j`'s children is established by the caller
when it stores the collected list), and all other new dicts are already
consistent with their parents. -/
def ChildPost (arena : List NodeRec) (j : Nat)
    (out : List NodeRec × List Nat) : Prop :=
  arena.length ≤ out.1.length ∧
  (∀ k, k < arena.length → getN out.1 k = getN arena k) ∧
  (∀ x ∈ out.2, arena.length ≤ x ∧ x < out.1.length ∧
    (getN out.1 x).parent = some j) ∧
  (∀ k, arena.length ≤ k → k < out.1.length →
    ∀ c ∈ (getN out.1 k).children, k < c ∧ c < out.1.length) ∧
  (∀ k, arena.length ≤ k → k < out.1.length → k ∉ out.2 →
    ∃ p, (getN out.1 k).parent = some p ∧ arena.length ≤ p ∧ p < k ∧
      k ∈ (getN out.1 p).children)

/-- Specification of the builder on this input node: `BuildPost` holds for every call. -/
def TreeSpec (e : PNode) : Prop :=
  ∀ par arena, (∀ q, par = some q → q < arena.length) →
    BuildPost arena par (buildTree e par arena)

/-- Specification of the child loop on this input list: `ChildPost` holds for every run. -/
def ChildrenSpec (cs : List PNode) : Prop :=
  ∀ j arena, j < arena.length → ChildPost arena j (buildChildren cs j arena)

theorem pnodeStrongInd (P : PNode → Prop)
    (h : ∀ name classes tx ch, (∀ c ∈ ch, P c) → P (.mk name classes tx ch)) :
    ∀ e, P e
  | .mk name classes tx ch =>
    h name classes tx ch (fun c hc => pnodeStrongInd P h c)
termination_by e => sizeOf e
decreasing_by
  have := List.sizeOf_lt_of_mem hc
  simp only [PNode.mk.sizeOf_spec]
  omega

theorem childrenSpec_of (cs : List PNode) (H : ∀ c ∈ cs, TreeSpec c) :
    ChildrenSpec cs := by
  induction cs with
  | nil =>
    intro j arena hj
    show ChildPost arena j (buildChildren [] j arena)
    simp only [buildChildren]
    exact ⟨Nat.le_refl _, fun k _ => rfl, by simp,
      fun k hk1 hk2 => absurd (Nat.lt_of_le_of_lt hk1 hk2) (Nat.lt_irrefl _),
      fun k hk1 hk2 => absurd (Nat.lt_of_le_of_lt hk1 hk2) (Nat.lt_irrefl _)⟩
  | cons c cs ih =>
    intro j arena hj
    have hpost := H c (by simp) (some j) arena
      (fun q hq => by injection hq with h; exact h ▸ hj)
    have htail : ChildrenSpec cs := ih (fun d hd => H d (by simp [hd]))
    cases hbt : buildTree c (some j) arena with
    | mk a1 r =>
      rw [hbt] at hpost
      cases r with
      | none =>
        have ha : a1 = arena := hpost.2.2.1 rfl
        have hunf : buildChildren (c :: cs) j arena = buildChildren cs j a1 := by
          simp [buildChildren, hbt]
        rw [hunf, ha]
        exact htail j arena hj
      | some k =>
        obtain ⟨hlen1, hpres1, _, hres1, hcb1, hpar1⟩ := hpost
        obtain ⟨hk_eq, hk_lt, hk_par⟩ := hres1 k rfl
        have htail2 := htail j a1 (Nat.lt_of_lt_of_le hj hlen1)
        cases hbc : buildChildren cs j a1 with
        | mk a2 ks =>
          rw [hbc] at htail2
          obtain ⟨hlen2, hpres2, htop2, hcb2, hpar2⟩ := htail2
          have hunf : buildChildren (c :: cs) j arena = (a2, k :: ks) := by
            simp [buildChildren, hbt, hbc]
          rw [hunf]
          refine ⟨Nat.le_trans hlen1 hlen2, ?_, ?_, ?_, ?_⟩
          · intro m hm
            rw [hpres2 m (Nat.lt_of_lt_of_le hm hlen1), hpres1 m hm]
          · intro x hx
            rcases List.mem_cons.mp hx with hx | hx
            · rw [hx]
              refine ⟨Nat.le_of_eq hk_eq.symm, Nat.lt_of_lt_of_le hk_lt hlen2, ?_⟩
              rw [hpres2 k hk_lt]; exact hk_par
            · obtain ⟨h1, h2, h3⟩ := htop2 x hx
              exact ⟨Nat.le_trans hlen1 h1, h2, h3⟩
          · intro m hm1 hm2 cc hcc
            by_cases hm3 : m < a1.length
            · rw [hpres2 m hm3] at hcc
              obtain ⟨h1, h2⟩ := hcb1 m hm1 hm3 cc hcc
              exact ⟨h1, Nat.lt_of_lt_of_le h2 hlen2⟩
            · exact hcb2 m (Nat.le_of_not_lt hm3) hm2 cc hcc
          · intro m hm1 hm2 hm3
            by_cases hm4 : m < a1.length
            · have hmk : m ≠ k := fun h => hm3 (h ▸ List.mem_cons_self _ _)
              obtain ⟨p, hp1, hp2, hp3, hp4⟩ := hpar1 m hm1 hm4
                (fun h => hmk (by injection h with h; exact h.symm))
              refine ⟨p, ?_, hp2, hp3, ?_⟩
              · rw [hpres2 m hm4]; exact hp1
              · rw [hpres2 p (Nat.lt_trans hp3 hm4)]; exact hp4
            · have hmks : m ∉ ks := fun h => hm3 (List.mem_cons_of_mem _ h)
              obtain ⟨p, hp1, hp2, hp3, hp4⟩ :=
                hpar2 m (Nat.le_of_not_lt hm4) hm2 hmks
              exact ⟨p, hp1, Nat.le_trans hlen1 hp2, hp3, hp4⟩

theorem treeSpec_all : ∀ e, TreeSpec e := by
  refine pnodeStrongInd _ ?_
  intro name classes tx ch IH par arena hpar
  cases name with
  | none =>
    show BuildPost arena par (buildTree (.mk none classes tx ch) par arena)
    simp only [buildTree]
    exact ⟨Nat.le_refl _, fun k _ => rfl, fun _ => rfl,
      fun j h => Option.noConfusion h,
      fun k hk1 hk2 => absurd (Nat.lt_of_le_of_lt hk1 hk2) (Nat.lt_irrefl _),
      fun k hk1 hk2 _ => absurd (Nat.lt_of_le_of_lt hk1 hk2) (Nat.lt_irrefl _)⟩
  | some t =>
    have hchild := childrenSpec_of ch IH arena.length
      (arena ++ [⟨t, classes, [], par⟩]) (by simp)
    cases hbc : buildChildren ch arena.length (arena ++ [⟨t, classes, [], par⟩]) with
    | mk a2 idxs =>
      rw [hbc] at hchild
      obtain ⟨hlen2, hpres2, htop2, hcb2, hpar2⟩ := hchild
      have hunf : buildTree (.mk (some t) classes tx ch) par arena
          = (a2.set arena.length ⟨t, classes, idxs, par⟩, some arena.length) := by
        simp [buildTree, hbc]
      rw [hunf]
      rw [List.length_append, List.length_cons, List.length_nil] at hlen2 hpres2 htop2 hcb2 hpar2
      simp only [Nat.add_zero] at hlen2 hpres2 htop2 hcb2 hpar2
      refine ⟨?_, ?_, ?_, ?_, ?_, ?_⟩
      · show arena.length ≤ (a2.set arena.length _).length
        rw [List.length_set]; omega
      · intro m hm
        show getN (a2.set arena.length _) m = getN arena m
        rw [getN_set_ne a2 _ m _ (by omega), hpres2 m (by omega),
          getN_append_left arena _ m hm]
      · intro h; exact Option.noConfusion h
      · intro j' hj'
        injection hj' with hj''
        refine ⟨hj''.symm, ?_, ?_⟩
        · rw [← hj'', List.length_set]; omega
        · rw [← hj'', getN_set_eq a2 _ _ (by omega)]
      · intro m hm1 hm2 cc hcc
        rw [List.length_set] at hm2
        by_cases hmL : m = arena.length
        · subst hmL
          rw [getN_set_eq a2 _ _ (by omega)] at hcc
          obtain ⟨h1, h2⟩ := htop2 cc hcc
          constructor
          · omega
          · rw [List.length_set]; exact h2.1
        · rw [getN_set_ne a2 _ m _ hmL] at hcc
          obtain ⟨h1, h2⟩ := hcb2 m (by omega) hm2 cc hcc
          constructor
          · exact h1
          · rw [List.length_set]; exact h2
      · intro m hm1 hm2 hm3
        rw [List.length_set] at hm2
        have hmL : m ≠ arena.length := fun h => hm3 (by rw [h])
        by_cases hmidx : m ∈ idxs
        · obtain ⟨h1, h2, h3⟩ := htop2 m hmidx
          refine ⟨arena.length, ?_, Nat.le_refl _, by omega, ?_⟩
          · rw [getN_set_ne a2 _ m _ hmL]; exact h3
          · rw [getN_set_eq a2 _ _ (by omega)]; exact hmidx
        · obtain ⟨p, hp1, hp2, hp3, hp4⟩ := hpar2 m (by omega) hm2 hmidx
          refine ⟨p, ?_, by omega, hp3, ?_⟩
          · rw [getN_set_ne a2 _ m _ hmL]; exact hp1
          · rw [getN_set_ne a2 _ p _ (by omega)]; exact hp4

/-- Reachability from the dict at index `r` along the owning `children`
direction of the arena. -/
inductive Reach (arena : List NodeRec) (r : Nat) : Nat → Prop where
  | refl : Reach arena r r
  | step {j k : Nat} : Reach arena r j → k ∈ (getN arena j).children →
      Reach arena r k

/-- C1: for every tree returned by `HTMLParser._build_tree` on a parsed
document, every node whose `parent` reference is not `none` is an element,
by identity, of its parent's `children`; the nodes reachable from the root
are exactly the allocated nodes; and exactly one reachable node (the root)
has no parent. -/
theorem build_parent_consistent (doc : PNode) (arena : List NodeRec) (r : Nat)
    (hb : buildTree doc none [] = (arena, some r)) :
    (∀ i p, i < arena.length → (getN arena i).parent = some p →
      p < arena.length ∧ i ∈ (getN arena p).children)
    ∧ (∀ i, i < arena.length → Reach arena r i)
    ∧ (∀ i, Reach arena r i → i < arena.length)
    ∧ (Reach arena r r ∧ (getN arena r).parent = none)
    ∧ (∀ i, Reach arena r i → (getN arena i).parent = none → i = r) := by
  have hspec := treeSpec_all doc none [] (fun q hq => Option.noConfusion hq)
  rw [hb] at hspec
  obtain ⟨hlen, hpres, hnone, hres, hcb, hpar⟩ := hspec
  obtain ⟨hr_eq, hr_lt, hr_par⟩ := hres r rfl
  simp only [List.length_nil] at hr_eq hcb hpar
  have hmem : ∀ i p, i < arena.length → (getN arena i).parent = some p →
      p < arena.length ∧ i ∈ (getN arena p).children := by
    intro i p hi hip
    by_cases hir : i = r
    · rw [hir, hr_par] at hip; exact Option.noConfusion hip
    · obtain ⟨p', hp1, _, hp3, hp4⟩ := hpar i (Nat.zero_le _) hi
        (fun h => hir (by injection h with h; exact h.symm))
      rw [hip] at hp1
      injection hp1 with hpp
      rw [hpp]
      exact ⟨Nat.lt_trans hp3 hi, hp4⟩
  have hreach_lt : ∀ i, Reach arena r i → i < arena.length := by
    intro i h
    induction h with
    | refl => exact hr_lt
    | step hj hmemc ih => exact (hcb _ (Nat.zero_le _) ih _ hmemc).2
  have hall : ∀ i, i < arena.length → Reach arena r i := by
    intro i
    induction i using Nat.strong_induction_on with
    | _ i ih =>
      intro hi
      by_cases hir : i = r
      · rw [hir]; exact Reach.refl
      · obtain ⟨p, hp1, _, hp3, hp4⟩ := hpar i (Nat.zero_le _) hi
          (fun h => hir (by injection h with h; exact h.symm))
        exact Reach.step (ih p hp3 (Nat.lt_trans hp3 hi)) hp4
  refine ⟨hmem, hall, hreach_lt, ⟨Reach.refl, hr_par⟩, ?_⟩
  intro i hri hinone
  by_contra hir
  obtain ⟨p, hp1, _, _, _⟩ := hpar i (Nat.zero_le _) (hreach_lt i hri)
    (fun h => hir (by injection h with h; exact h.symm))
  rw [hinone] at hp1
  exact Option.noConfusion hp1

/-- Concrete parsed document for the C1 witness. -/
def exDoc1 : PNode := .mk (some "html") [] "" [.mk (some "p") ["x"] "" []]

/-- The arena `_build_tree` produces on `exDoc1`. -/
def exArena1 : List NodeRec :=
  [⟨"html", [], [1], none⟩, ⟨"p", ["x"], [], some 0⟩]

/-- Witness for C1 at a concrete two-node document. -/
theorem build_parent_consistent_witness :
    (∀ i p, i < exArena1.length → (getN exArena1 i).parent = some p →
      p < exArena1.length ∧ i ∈ (getN exArena1 p).children)
    ∧ (∀ i, i < exArena1.length → Reach exArena1 0 i)
    ∧ (∀ i, Reach exArena1 0 i → i < exArena1.length)
    ∧ (Reach exArena1 0 0 ∧ (getN exArena1 0).parent = none)
    ∧ (∀ i, Reach exArena1 0 i → (getN exArena1 i).parent = none → i = 0) :=
  build_parent_consistent exDoc1 exArena1 0 (by decide)

/-- An input node with no element name, wrapping a qualifying `p` element. -/
def exNested : PNode := .mk none [] "wrapper" [.mk (some "p") ["x"] "" []]

/-- Counterexample for C2: the builder, applied to a nameless input node
that contains a qualifying `p` element among its children, allocates no
node at all — it does not recurse into the nameless node's children, so
the nested element is not discovered. -/
theorem build_nameless_drops_nested :
    hasElem exNested = true ∧ buildTree exNested none [] = ([], none) := by
  constructor
  · decide
  · rfl

/-- C2 (amended): for every input node that has no element name, the
builder produces no node and does not recurse into that input node's
children: the arena is returned unchanged and the result is `none`,
whatever the children are. -/
theorem build_nameless_skips_subtree (classes : List String) (tx : String)
    (ch : List PNode) (par : Option Nat) (arena : List NodeRec) :
    buildTree (.mk none classes tx ch) par arena = (arena, none) := rfl

/-- C5: for every input document containing no node with an element name,
the builder yields `none` (and an unchanged empty arena) rather than a
node; the caller receives this `none` result to check explicitly. -/
theorem build_no_elements_yields_none (doc : PNode) (h : hasElem doc = false) :
    buildTree doc none [] = ([], none) := by
  cases doc with
  | mk name classes tx ch =>
    cases name with
    | none => rfl
    | some t => simp [hasElem] at h

/-- Witness for C5 at a concrete document with no qualifying elements. -/
theorem build_no_elements_yields_none_witness :
    buildTree (.mk none [] "just text" [.mk none [] "more" []]) none []
      = ([], none) :=
  build_no_elements_yields_none (.mk none [] "just text" [.mk none [] "more" []])
    (by decide)

/-- Substring containment on character lists, Python's `pat in hay`. -/
def containsSub (hay pat : List Char) : Bool :=
  pat.isPrefixOf hay ||
    match hay with
    | [] => false
    | _ :: t => containsSub t pat

/-- Python's `pat in hay` on strings. -/
def strContains (hay pat : String) : Bool := containsSub hay.data pat.data

theorem strContains_empty (s : String) : strContains s "" = true := by
  cases s with
  | mk l =>
    cases l with
    | nil => rfl
    | cons c t => simp [strContains, containsSub, List.isPrefixOf]

/-- Numeric value of a digit string. -/
def digitsVal (ds : List Char) : Nat :=
  ds.foldl (fun n c => n * 10 + (c.toNat - '0'.toNat)) 0

/-- Python `int(arg)` on an already-stripped command argument: an optional
sign followed by one or more decimal digits, `none` when the argument does
not parse. -/
def parseInt (s : String) : Option Int :=
  match s.data with
  | [] => none
  | '-' :: ds =>
    if !ds.isEmpty && ds.all Char.isDigit then some (-(digitsVal ds : Int))
    else none
  | '+' :: ds =>
    if !ds.isEmpty && ds.all Char.isDigit then some ((digitsVal ds : Int))
    else none
  | ds =>
    if ds.all Char.isDigit then some ((digitsVal ds : Int)) else none

/-- Python `sep.join(xs)`. -/
def joinWith (sep : String) : List String → String
  | [] => ""
  | s :: rest =>
    match rest with
    | [] => s
    | _ :: _ => s ++ sep ++ joinWith sep rest

/-- Embedding of `HTMLExplorer.change_directory(arg)` over the arena: the
cursor is the identity (arena index) of the current dict.  The returned
flag is `true` exactly when the Python code prints a failure message
(ascend past root, index out of range, no class match), in which case the
cursor is left unchanged. -/
def change_directory (arena : List NodeRec) (cur : Nat) (arg : String) :
    Nat × Bool :=
  let children := (getN arena cur).children
  if arg = ".." then
    match (getN arena cur).parent with
    | some p => (p, false)
    | none => (cur, true)
  else
    match parseInt arg with
    | some idx =>
      if 0 ≤ idx ∧ idx < (children.length : Int) then
        (children.getD idx.toNat 0, false)
      else (cur, true)
    | none =>
      match children.filter
          (fun c => strContains (joinWith " " (getN arena c).classes) arg) with
      | [] => (cur, true)
      | c :: _ => (c, false)

/-- C6: every navigation miss (ascend past root, out-of-range index, no
class match) reports a failure and leaves the cursor unchanged, and
`descend("..")` from any non-root node moves the cursor to exactly the
prior node's parent. -/
theorem navigation_miss_preserves_cursor (arena : List NodeRec) (cur : Nat) :
    ((getN arena cur).parent = none →
      change_directory arena cur ".." = (cur, true))
    ∧ (∀ p, (getN arena cur).parent = some p →
      change_directory arena cur ".." = (p, false))
    ∧ (∀ s idx, parseInt s = some idx →
      ¬(0 ≤ idx ∧ idx < (((getN arena cur).children.length : Nat) : Int)) →
      change_directory arena cur s = (cur, true))
    ∧ (∀ s, s ≠ ".." → parseInt s = none →
      (getN arena cur).children.filter
        (fun c => strContains (joinWith " " (getN arena c).classes) s) = [] →
      change_directory arena cur s = (cur, true)) := by
  refine ⟨?_, ?_, ?_, ?_⟩
  · intro h; simp [change_directory, h]
  · intro p h; simp [change_directory, h]
  · intro s idx hp hrange
    have hdots : parseInt ".." = none := rfl
    have hs : s ≠ ".." := by
      intro h; rw [h, hdots] at hp; exact Option.noConfusion hp
    simp [change_directory, hs, hp, hrange]
  · intro s hs hp hfilter
    simp [change_directory, hs, hp, hfilter]

/-- Witness for C6 on the concrete two-node arena. -/
theorem navigation_miss_witness :
    change_directory exArena1 1 ".." = (0, false)
    ∧ change_directory exArena1 0 ".." = (0, true)
    ∧ change_directory exArena1 0 "5" = (0, true)
    ∧ change_directory exArena1 0 "nomatch" = (0, true) :=
  ⟨(navigation_miss_preserves_cursor exArena1 1).2.1 0 (by decide),
   (navigation_miss_preserves_cursor exArena1 0).1 (by decide),
   (navigation_miss_preserves_cursor exArena1 0).2.2.1 "5" 5 (by decide)
     (by decide),
   (navigation_miss_preserves_cursor exArena1 0).2.2.2 "nomatch" (by decide)
     (by decide) (by decide)⟩

theorem head_filter_first (p : Nat → Bool) :
    ∀ (l : List Nat) (c : Nat), (l.filter p).head? = some c →
      ∃ k, k < l.length ∧ l.getD k 0 = c ∧ p c = true ∧
        ∀ j, j < k → p (l.getD j 0) = false := by
  intro l
  induction l with
  | nil => intro c h; simp at h
  | cons a t ih =>
    intro c h
    by_cases hp : p a
    · simp only [List.filter_cons, hp, if_pos, List.head?] at h
      injection h with h
      refine ⟨0, by simp, h, h ▸ hp, fun j hj => absurd hj (Nat.not_lt_zero _)⟩
    · simp only [List.filter_cons, hp, Bool.false_eq_true, if_false] at h
      obtain ⟨k, hk1, hk2, hk3, hk4⟩ := ih c h
      refine ⟨k + 1, by simpa using hk1, hk2, hk3, ?_⟩
      intro j hj
      cases j with
      | zero => exact (Bool.not_eq_true _).mp hp
      | succ j' => exact hk4 j' (by omega)

/-- C7: when the argument of `descend(text)` does not parse as an integer
and some child's space-joined class string contains it, the cursor moves
to the first such child in child (document) order; multiple matches are
resolved deterministically by taking the first. -/
theorem descend_text_first_match (arena : List NodeRec) (cur : Nat)
    (arg : String) (h1 : arg ≠ "..") (h2 : parseInt arg = none) (c : Nat)
    (hc : ((getN arena cur).children.filter
      (fun x => strContains (joinWith " " (getN arena x).classes) arg)).head?
        = some c) :
    change_directory arena cur arg = (c, false)
    ∧ ∃ k, k < (getN arena cur).children.length
      ∧ (getN arena cur).children.getD k 0 = c
      ∧ strContains (joinWith " " (getN arena c).classes) arg = true
      ∧ ∀ j, j < k → strContains
          (joinWith " " (getN arena ((getN arena cur).children.getD j 0)).classes)
          arg = false := by
  constructor
  · cases hf : (getN arena cur).children.filter
        (fun x => strContains (joinWith " " (getN arena x).classes) arg) with
    | nil => rw [hf] at hc; exact Option.noConfusion hc
    | cons a t =>
      rw [hf] at hc
      injection hc with hc
      rw [← hc]
      simp [change_directory, h1, h2, hf]
  · exact head_filter_first _ _ c hc

/-- Arena with two children carrying distinct class strings, for the C7
witness. -/
def exArena2 : List NodeRec :=
  [⟨"div", [], [1, 2], none⟩, ⟨"p", ["aa"], [], some 0⟩,
   ⟨"span", ["bb"], [], some 0⟩]

/-- Witness for C7: descending by class text `"b"` moves the cursor to the
second child, the first whose class string contains `"b"`. -/
theorem descend_text_first_match_witness :
    change_directory exArena2 0 "b" = (2, false) :=
  (descend_text_first_match exArena2 0 "b" (by decide) (by decide) 2
    (by decide)).1

/-- C10: descending with the empty string is never a navigation miss when
the current node has children: the empty string is a substring of every
child's joined class string, so every child matches and the cursor moves
to the first child in document order. -/
theorem descend_empty_matches_all (arena : List NodeRec) (cur : Nat)
    (h : (getN arena cur).children ≠ []) :
    (getN arena cur).children.filter
      (fun c => strContains (joinWith " " (getN arena c).classes) "") =
      (getN arena cur).children
    ∧ change_directory arena cur "" =
      ((getN arena cur).children.headD 0, false) := by
  have hfil : (getN arena cur).children.filter
      (fun c => strContains (joinWith " " (getN arena c).classes) "") =
      (getN arena cur).children :=
    List.filter_eq_self.mpr (fun a _ => strContains_empty _)
  refine ⟨hfil, ?_⟩
  cases hch : (getN arena cur).children with
  | nil => exact absurd hch h
  | cons c cs =>
    rw [hch] at hfil
    have hne : ("" : String) ≠ ".." := by decide
    have hpi : parseInt "" = none := rfl
    simp [change_directory, hne, hpi, hch, hfil]

/-- Witness for C10 on the concrete two-node arena. -/
theorem descend_empty_matches_all_witness :
    change_directory exArena1 0 "" = (1, false) :=
  (descend_empty_matches_all exArena1 0 (by decide)).2

/-- Snapshot of one node dict along the owning `children` direction.  The
`parent` field keeps the dict's parent reference as an opaque identity
(arena index), `none` for the root; the presentation helpers and the
exporter below never follow it. -/
inductive DictNode : Type where
  | mk (tag : String) (classes : List String) (children : List DictNode)
      (parent : Option Nat)

/-- The `"tag"` entry of the dict. -/
def DictNode.tag : DictNode → String
  | .mk t _ _ _ => t

/-- The `"classes"` entry of the dict. -/
def DictNode.classes : DictNode → List String
  | .mk _ c _ _ => c

/-- The `"children"` entry of the dict. -/
def DictNode.children : DictNode → List DictNode
  | .mk _ _ ch _ => ch

/-- The `"parent"` entry of the dict, as an opaque identity. -/
def DictNode.parent : DictNode → Option Nat
  | .mk _ _ _ p => p

theorem dictStrongInd (P : DictNode → Prop)
    (h : ∀ t cs ch par, (∀ c ∈ ch, P c) → P (.mk t cs ch par)) :
    ∀ n, P n
  | .mk t cs ch par =>
    h t cs ch par (fun c hc => dictStrongInd P h c)
termination_by n => sizeOf n
decreasing_by
  have := List.sizeOf_lt_of_mem hc
  simp only [DictNode.mk.sizeOf_spec]
  omega

/-- Embedding of `format_node_identifier(node)`: `"tag (c1 c2 ...)"` when
the joined class string is non-empty, else just the tag. -/
def format_node_identifier (n : DictNode) : String :=
  let classes := joinWith " " n.classes
  if classes ≠ "" then n.tag ++ " (" ++ classes ++ ")" else n.tag

mutual
/-- The nodes of the subtree rooted at `n`, in pre-order DFS order. -/
def preorder : DictNode → List DictNode
  | .mk t cs ch par => .mk t cs ch par :: preorderList ch

/-- Pre-order traversal of a forest, in order. -/
def preorderList : List DictNode → List DictNode
  | [] => []
  | c :: cs => preorder c ++ preorderList cs
end

mutual
/-- The recursive `search_tree` helper of `HTMLExplorer.search`: the query
has already been lowered; a node is appended to the results when the query
is a substring of its lowered formatted identifier, then the children are
searched in order. -/
def search_tree (q : String) : DictNode → List DictNode
  | .mk t cs ch par =>
    (if strContains ((format_node_identifier (.mk t cs ch par)).toLower) q
     then [DictNode.mk t cs ch par] else []) ++ search_list q ch

/-- The child loop of `search_tree`. -/
def search_list (q : String) : List DictNode → List DictNode
  | [] => []
  | c :: cs => search_tree q c ++ search_list q cs
end

/-- Embedding of `HTMLExplorer.search(query)` run with the cursor at `n`:
lowers the query once, then collects the matches of `search_tree`. -/
def search (n : DictNode) (query : String) : List DictNode :=
  search_tree (query.toLower) n

mutual
/-- Number of nodes in the subtree rooted at the given node. -/
def countNodes : DictNode → Nat
  | .mk _ _ ch _ => 1 + countNodesList ch

/-- Number of nodes in a forest. -/
def countNodesList : List DictNode → Nat
  | [] => 0
  | c :: cs => countNodes c + countNodesList cs
end

mutual
/-- Embedding of `tree_to_string(node, prefix, is_last)`: one line for the
node itself (branch glyph, tag, and parenthesised classes when the class
list is non-empty), then one recursive rendering per child, each preceded
by a newline, with the grown prefix. -/
def tree_to_string : DictNode → String → Bool → String
  | .mk tag classes children _, pref, is_last =>
    let classes_str :=
      if classes ≠ [] then " (" ++ joinWith " " classes ++ ")" else ""
    (pref ++ (if is_last then "└── " else "├── ") ++ tag ++ classes_str) ++
      tts_children children (pref ++ (if is_last then "    " else "│   "))

/-- The `enumerate(children)` loop of `tree_to_string`: the child is last
exactly when no further children follow. -/
def tts_children : List DictNode → String → String
  | [], _ => ""
  | c :: cs, pref =>
    "\n" ++ tree_to_string c pref cs.isEmpty ++ tts_children cs pref
end

/-- Number of newline characters in a string. -/
def countNL (s : String) : Nat := s.data.count '\n'

/-- Whether a string contains no newline character. -/
def strNLFree (s : String) : Bool := !s.data.contains '\n'

mutual
/-- All tags and class strings of the subtree are newline-free. -/
def nlFree : DictNode → Bool
  | .mk t cs ch _ => strNLFree t && cs.all strNLFree && nlFreeList ch

/-- Forest version of `nlFree`. -/
def nlFreeList : List DictNode → Bool
  | [] => true
  | c :: cs => nlFree c && nlFreeList cs
end

theorem toLower_empty : ("" : String).toLower = "" := by
  rw [String.toLower, String.map, String.mapAux]
  simp [String.atEnd]
  exact fun h => absurd rfl h

theorem search_list_filter (q : String) (ch : List DictNode)
    (H : ∀ c ∈ ch, search_tree q c = (preorder c).filter
      (fun m => strContains ((format_node_identifier m).toLower) q)) :
    search_list q ch = (preorderList ch).filter
      (fun m => strContains ((format_node_identifier m).toLower) q) := by
  induction ch with
  | nil => simp [search_list, preorderList]
  | cons c cs ih =>
    simp only [search_list, preorderList, List.filter_append]
    rw [H c (by simp), ih (fun d hd => H d (by simp [hd]))]

theorem search_tree_filter (q : String) : ∀ n, search_tree q n =
    (preorder n).filter
      (fun m => strContains ((format_node_identifier m).toLower) q) := by
  refine dictStrongInd _ ?_
  intro t cs ch par IH
  simp only [search_tree, preorder, List.filter_cons]
  rw [search_list_filter q ch IH]
  by_cases hq :
      strContains ((format_node_identifier (.mk t cs ch par)).toLower) q
  · simp [hq]
  · simp [hq]

/-- C8: for every subtree and query, the search results are exactly the
nodes of the subtree rooted at the current node whose formatted identifier
contains the query case-insensitively, in pre-order DFS order; with the
empty query every node of the subtree is returned. -/
theorem search_pre_order_filter (n : DictNode) (q : String) :
    search n q = (preorder n).filter
      (fun m => strContains ((format_node_identifier m).toLower) (q.toLower))
    ∧ search n "" = preorder n := by
  constructor
  · exact search_tree_filter (q.toLower) n
  · rw [search, toLower_empty, search_tree_filter]
    exact List.filter_eq_self.mpr (fun a _ => strContains_empty _)

theorem countNL_append (a b : String) :
    countNL (a ++ b) = countNL a + countNL b := by
  simp [countNL, String.data_append, List.count_append]

theorem countNL_eq_zero_of_nlfree (s : String) (h : strNLFree s = true) :
    countNL s = 0 := by
  rw [countNL, List.count_eq_zero]
  intro hmem
  rw [strNLFree, Bool.not_eq_true'] at h
  exact absurd hmem (by simpa using h)

theorem countNL_joinWith_space (cs : List String)
    (h : ∀ s ∈ cs, strNLFree s = true) : countNL (joinWith " " cs) = 0 := by
  induction cs with
  | nil => rfl
  | cons s rest ih =>
    cases rest with
    | nil =>
      rw [joinWith]
      exact countNL_eq_zero_of_nlfree s (h s (by simp))
    | cons s2 rest2 =>
      rw [joinWith]
      rw [countNL_append, countNL_append,
        countNL_eq_zero_of_nlfree s (h s (by simp)),
        ih (fun x hx => h x (by simp [hx]))]
      rfl

theorem tts_children_lines (ch : List DictNode)
    (H : ∀ c ∈ ch, nlFree c = true → ∀ pref last, countNL pref = 0 →
      countNL (tree_to_string c pref last) + 1 = countNodes c)
    (hch : nlFreeList ch = true) (pref : String) (hp : countNL pref = 0) :
    countNL (tts_children ch pref) = countNodesList ch := by
  induction ch with
  | nil => rfl
  | cons c cs ih =>
    rw [nlFreeList, Bool.and_eq_true] at hch
    rw [tts_children, countNL_append, countNL_append]
    have h1 := H c (by simp) hch.1 pref cs.isEmpty hp
    have h2 := ih (fun d hd => H d (by simp [hd])) hch.2
    rw [countNodesList]
    have h3 : countNL "\n" = 1 := rfl
    omega

theorem tree_to_string_lines : ∀ n : DictNode, nlFree n = true →
    ∀ pref last, countNL pref = 0 →
    countNL (tree_to_string n pref last) + 1 = countNodes n := by
  refine dictStrongInd _ ?_
  intro t cs ch par IH hnl pref last hp
  rw [nlFree, Bool.and_eq_true, Bool.and_eq_true] at hnl
  obtain ⟨⟨ht, hcs⟩, hch⟩ := hnl
  simp only [tree_to_string]
  rw [countNL_append, countNL_append, countNL_append, countNL_append]
  have hglyph : countNL (if last then "└── " else "├── ") = 0 := by
    cases last <;> rfl
  have htag : countNL t = 0 := countNL_eq_zero_of_nlfree t ht
  have hcstr : countNL (if cs ≠ [] then " (" ++ joinWith " " cs ++ ")" else "")
      = 0 := by
    by_cases hcase : cs = []
    · rw [if_neg (by simp [hcase])]
      rfl
    · rw [if_pos hcase, countNL_append, countNL_append]
      rw [countNL_joinWith_space cs (List.all_eq_true.mp hcs)]
      rfl
  have hpref2 : countNL (pref ++ (if last then "    " else "│   ")) = 0 := by
    rw [countNL_append, hp]
    cases last <;> rfl
  have htts := tts_children_lines ch IH hch
    (pref ++ (if last then "    " else "│   ")) hpref2
  rw [countNodes]
  omega

/-- C9: for every node all of whose tags and class strings are
newline-free, the tree rendering of the subtree rooted at that node
produces exactly one line per node of the subtree (newline count plus one
equals the node count), the node itself included, in pre-order. -/
theorem render_tree_line_count (n : DictNode) (h : nlFree n = true) :
    countNL (tree_to_string n "" true) + 1 = countNodes n :=
  tree_to_string_lines n h "" true rfl

/-- A three-node tree for the rendering and serialization witnesses. -/
def exTree1 : DictNode :=
  .mk "div" ["a"] [.mk "p" [] [] (some 0), .mk "span" ["b"] [] (some 0)] none

/-- Witness for C9 on a concrete three-node tree. -/
theorem render_tree_line_count_witness :
    countNL (tree_to_string exTree1 "" true) + 1 = countNodes exTree1 :=
  render_tree_line_count exTree1 (by decide)

/-- A parsed JSON-like value: the structured form `export_json` writes
(and what parsing the written file back yields). -/
inductive JVal : Type where
  | str (s : String)
  | arr (elems : List JVal)
  | obj (fields : List (String × JVal))

mutual
/-- The `remove_parent` helper of `HTMLParser.export_json`: a new object
holding every entry of the node dict except the `"parent"` key (so, in
insertion order: `tag`, `classes`, `children`), with the children
processed recursively. -/
def remove_parent : DictNode → JVal
  | .mk t cs ch _ =>
    .obj [("tag", .str t), ("classes", .arr (cs.map .str)),
      ("children", .arr (removeParentList ch))]

/-- The children list of `remove_parent`. -/
def removeParentList : List DictNode → List JVal
  | [] => []
  | c :: cs => remove_parent c :: removeParentList cs
end

mutual
/-- Whether a field named `k` occurs at any depth of the value. -/
def hasField : JVal → String → Bool
  | .str _, _ => false
  | .arr xs, k => hasFieldArr xs k
  | .obj fs, k => hasFieldObj fs k

/-- Array version of `hasField`. -/
def hasFieldArr : List JVal → String → Bool
  | [], _ => false
  | x :: xs, k => hasField x k || hasFieldArr xs k

/-- Object version of `hasField`: a field matches by name or contains a
matching field in its value. -/
def hasFieldObj : List (String × JVal) → String → Bool
  | [], _ => false
  | (key, v) :: fs, k => key = k || hasField v k || hasFieldObj fs k
end

mutual
/-- Structural identity of subtrees: same tags, classes and children
recursively, regardless of node identities (the `parent` references are
ignored). -/
def structEqB : DictNode → DictNode → Bool
  | .mk t1 c1 ch1 _, .mk t2 c2 ch2 _ =>
    t1 == t2 && c1 == c2 && structEqListB ch1 ch2

/-- Forest version of `structEqB`. -/
def structEqListB : List DictNode → List DictNode → Bool
  | [], [] => true
  | a :: as2, b :: bs => structEqB a b && structEqListB as2 bs
  | _, _ => false
end

/-- JSON string escaping for the characters relevant here (quote,
backslash and control characters); a model of the escaping the external
JSON writer applies. -/
def escapeChar (c : Char) : String :=
  if c = '\x22' then "\\\x22"
  else if c = '\\' then "\\\\"
  else if c = '\n' then "\\n"
  else if c = '\t' then "\\t"
  else if c = '\r' then "\\r"
  else String.singleton c

/-- Escape a whole string. -/
def escape (s : String) : String := String.join (s.data.map escapeChar)

/-- An indentation of `n` spaces. -/
def sp (n : Nat) : String := String.join (List.replicate n " ")

mutual
/-- Deterministic model of `json.dump(value, f, indent=2)`: nested
containers are rendered multi-line with the indentation level growing by
two per depth, fields in insertion order. -/
def jdump : JVal → Nat → String
  | .str s, _ => "\x22" ++ escape s ++ "\x22"
  | .arr [], _ => "[]"
  | .arr (x :: xs), ind =>
    "[\n" ++ jdumpArr (x :: xs) (ind + 2) ++ "\n" ++ sp ind ++ "]"
  | .obj [], _ => "\x7b\x7d"
  | .obj (f :: fs), ind =>
    "\x7b\n" ++ jdumpObj (f :: fs) (ind + 2) ++ "\n" ++ sp ind ++ "\x7d"

/-- Comma-separated array elements, one per line. -/
def jdumpArr : List JVal → Nat → String
  | [], _ => ""
  | [x], ind => sp ind ++ jdump x ind
  | x :: y :: xs, ind =>
    sp ind ++ jdump x ind ++ ",\n" ++ jdumpArr (y :: xs) ind

/-- Comma-separated object fields, one per line. -/
def jdumpObj : List (String × JVal) → Nat → String
  | [], _ => ""
  | [(k, v)], ind => sp ind ++ "\x22" ++ escape k ++ "\x22: " ++ jdump v ind
  | (k, v) :: f :: fs, ind =>
    sp ind ++ "\x22" ++ escape k ++ "\x22: " ++ jdump v ind ++ ",\n" ++
      jdumpObj (f :: fs) ind
end

/-- The text `HTMLParser.export_json` writes for the subtree rooted at the
given node: parent references stripped, then dumped with indent 2. -/
def export_json_string (n : DictNode) : String := jdump (remove_parent n) 0

theorem hasFieldArr_strs (cs : List String) (k : String) :
    hasFieldArr (cs.map JVal.str) k = false := by
  induction cs with
  | nil => rfl
  | cons s rest ih =>
    rw [List.map_cons, hasFieldArr, ih]
    rfl

theorem removeParentList_no_parent_field (ch : List DictNode)
    (H : ∀ c ∈ ch, hasField (remove_parent c) "parent" = false) :
    hasFieldArr (removeParentList ch) "parent" = false := by
  induction ch with
  | nil => rfl
  | cons c cs ih =>
    rw [removeParentList, hasFieldArr, H c (by simp),
      ih (fun d hd => H d (by simp [hd]))]
    rfl

theorem removeParent_no_parent_field : ∀ n : DictNode,
    hasField (remove_parent n) "parent" = false := by
  refine dictStrongInd _ ?_
  intro t cs ch par IH
  rw [remove_parent]
  simp only [hasField, hasFieldObj, hasFieldArr]
  rw [hasFieldArr_strs, removeParentList_no_parent_field ch IH]
  decide

theorem structEqList_removeParentList (as2 : List DictNode)
    (H : ∀ a ∈ as2, ∀ b, structEqB a b = true →
      remove_parent a = remove_parent b) :
    ∀ bs, structEqListB as2 bs = true →
      removeParentList as2 = removeParentList bs := by
  induction as2 with
  | nil =>
    intro bs h
    cases bs with
    | nil => rfl
    | cons b bs2 => simp [structEqListB] at h
  | cons a t ih =>
    intro bs h
    cases bs with
    | nil => simp [structEqListB] at h
    | cons b bs2 =>
      rw [structEqListB, Bool.and_eq_true] at h
      rw [removeParentList, removeParentList, H a (by simp) b h.1,
        ih (fun x hx b2 => H x (by simp [hx]) b2) bs2 h.2]

theorem structEq_remove_parent : ∀ n : DictNode, ∀ m, structEqB n m = true →
    remove_parent n = remove_parent m := by
  refine dictStrongInd _ ?_
  intro t cs ch par IH m h
  cases m with
  | mk t2 cs2 ch2 par2 =>
    rw [structEqB, Bool.and_eq_true, Bool.and_eq_true] at h
    obtain ⟨⟨h1, h2⟩, h3⟩ := h
    rw [remove_parent, remove_parent, eq_of_beq h1, eq_of_beq h2,
      structEqList_removeParentList ch IH ch2 h3]

/-- C3: the serialized export contains no field named `parent` at any
depth of nesting, and the export is a pure function of the subtree's shape
and content: any two structurally identical subtrees (same tags, classes
and children recursively, regardless of node identities and parent
references) serialize to byte-identical output. -/
theorem export_no_parent_and_structural (n m : DictNode) :
    hasField (remove_parent n) "parent" = false
    ∧ (structEqB n m = true →
      export_json_string n = export_json_string m) :=
  ⟨removeParent_no_parent_field n,
   fun h => congrArg (fun v => jdump v 0) (structEq_remove_parent n m h)⟩

/-- A tree structurally identical to `exTree1` but with different parent
references at every node (different node identities). -/
def exTree2 : DictNode :=
  .mk "div" ["a"] [.mk "p" [] [] (some 7), .mk "span" ["b"] [] (some 9)]
    (some 3)

/-- Witness for C3: two structurally identical trees with different parent
references export byte-identically. -/
theorem export_no_parent_and_structural_witness :
    structEqB exTree1 exTree2 = true
    ∧ export_json_string exTree1 = export_json_string exTree2 :=
  ⟨by decide, (export_no_parent_and_structural exTree1 exTree2).2 (by decide)⟩

/-- Python `str.strip()` on a text payload: drop leading and trailing
whitespace. -/
def pyStrip (s : String) : String :=
  ⟨((s.data.dropWhile Char.isWhitespace).reverse.dropWhile
    Char.isWhitespace).reverse⟩

mutual
/-- BeautifulSoup `get_text(strip=True)` over the generic parsed document:
the concatenation, in document order, of the stripped text payloads of the
descendant text (nameless) nodes.  In the parsing primitive text nodes are
leaves, so their children are not consulted. -/
def get_text : PNode → String
  | .mk none _ tx _ => pyStrip tx
  | .mk (some _) _ _ ch => get_text_list ch

/-- Child loop of `get_text`. -/
def get_text_list : List PNode → String
  | [] => ""
  | c :: cs => get_text c ++ get_text_list cs
end

mutual
/-- Embedding of `soup.find_all(True)`: every element (named) descendant of the given
node, the node itself excluded, in document (pre-order) order. -/
def find_all_tags : PNode → List PNode
  | .mk _ _ _ ch => find_all_tags_list ch

/-- Forest version of `find_all_tags`: each element is listed before its
own descendants. -/
def find_all_tags_list : List PNode → List PNode
  | [] => []
  | c :: cs =>
    (match c with
     | .mk (some _) _ _ _ => c :: find_all_tags c
     | .mk none _ _ _ => find_all_tags c) ++ find_all_tags_list cs
end

/-- Python `blocks.setdefault(name, []).append(text)` on an
insertion-ordered mapping, represented as an association list. -/
def addBlock : List (String × List String) → String → String →
    List (String × List String)
  | [], k, v => [(k, [v])]
  | (k2, vs) :: rest, k, v =>
    if k2 = k then (k2, vs ++ [v]) :: rest
    else (k2, vs) :: addBlock rest k v

/-- Embedding of `HTMLParser.extract_text_by_blocks`: iterate over
`soup.find_all(True)`; for each element whose name is `div`, `p` or
`span` and whose stripped text content is non-empty, append that text to
the per-tag ordered sequence. -/
def extract_text_by_blocks (soup : PNode) : List (String × List String) :=
  (find_all_tags soup).foldl
    (fun blocks b =>
      match b with
      | .mk (some nm) _ _ _ =>
        if nm = "div" ∨ nm = "p" ∨ nm = "span" then
          if get_text b ≠ "" then addBlock blocks nm (get_text b) else blocks
        else blocks
      | .mk none _ _ _ => blocks)
    []

/-- The parsed form of the scenario source document
`<div class="a"><p>X</p><span class="b">Y</span></div>` (the
BeautifulSoup document node wrapping the fragment). -/
def exScenario : PNode :=
  .mk (some "[document]") [] ""
    [.mk (some "div") ["a"] ""
      [.mk (some "p") [] "" [.mk none [] "X" []],
       .mk (some "span") ["b"] "" [.mk none [] "Y" []]]]

/-- Counterexample for C4: on the scenario document the extraction result
does have an entry for `div`, holding the nested text `"XY"`, because an
element's entry uses its full descendant stripped text; so the result is
not the claimed mapping without a `div` entry. -/
theorem extract_blocks_div_entry :
    List.lookup "div" (extract_text_by_blocks exScenario) = some ["XY"]
    ∧ extract_text_by_blocks exScenario ≠ [("p", ["X"]), ("span", ["Y"])] := by
  constructor
  · decide
  · decide

/-- C4 (amended): on the scenario document the extraction returns the
mapping `div` to `["XY"]`, `p` to `["X"]`, `span` to `["Y"]`, in document
order: an element's entry holds its whole stripped descendant text, so
`div` does contribute an entry. -/
theorem extract_blocks_scenario :
    extract_text_by_blocks exScenario =
      [("div", ["XY"]), ("p", ["X"]), ("span", ["Y"])] := by decide
